import Mathlib

/-!
Shallow embedding of `backend/main.py` of the ai-conscious-calendar repository.

The scheduling core (`assign_slots_with_breaks`), the classification endpoint
(`generate_schedule`) and the realtime session layer (`realtime_start`,
`realtime_update`) are translated into pure Lean functions.  Python dicts with
possibly-missing keys become structures with `Option` fields (`.get(k, d)`
becomes `Option.getD`); the in-memory session dict becomes an association
list; the mutable `used_slots` set becomes a list consulted only through
membership; Python's unbounded `while True` overflow-search loop becomes a
fueled search (`findExtFuel`) whose fuel is proved sufficient, so the fueled
function agrees with the unbounded loop; Python's stable `sorted` becomes
`List.insertionSort`, which with a non-strict key comparison is a stable sort
and hence extensionally equal to any other stable sort by the same key; the
classifier call and JSON parse (the only effectful inputs) are abstracted as a
`ClassifierOutcome` parameter; `uuid4` session-id generation is abstracted as
a string parameter.
-/

namespace ConsciousCalendar

set_option maxRecDepth 1000000

/-- `energy_slots["high"]` in `assign_slots_with_breaks`. -/
def energySlotsHigh : List String := ["9 AM", "10 AM", "11 AM", "12 PM"]

/-- `energy_slots["medium"]` in `assign_slots_with_breaks`. -/
def energySlotsMedium : List String := ["1 PM", "2 PM", "3 PM", "4 PM"]

/-- `energy_slots["low"]` in `assign_slots_with_breaks`. -/
def energySlotsLow : List String := ["5 PM", "6 PM", "7 PM", "8 PM"]

/-- The three keys of the `energy_slots` dict. -/
inductive Zone where
  | high
  | medium
  | low
deriving DecidableEq

/-- `energy_slots[zone]`. -/
def zoneSlots : Zone → List String
  | .high => energySlotsHigh
  | .medium => energySlotsMedium
  | .low => energySlotsLow

/-- `sum(energy_slots.values(), [])`: the zone label lists flattened in dict
insertion order high, medium, low. -/
def allSlotsFlat : List String := energySlotsHigh ++ energySlotsMedium ++ energySlotsLow

/-- A classified task dict as consumed by `assign_slots_with_breaks`: the keys
`task`, `type`, `reason` may each be absent (the code reads them with
`task.get(key, "")`). -/
structure TaskDict where
  task : Option String
  type : Option String
  reason : Option String
deriving DecidableEq

/-- A schedule entry dict as produced by `assign_slots_with_breaks`; all four
keys are always present. -/
structure Entry where
  time : String
  task : String
  type : String
  reason : String
deriving DecidableEq

/-- `type_priority = {"Deep Work": 1, "Creative": 2, "Shallow": 3}` looked up
with `.get(ty, 3)`. -/
def typePriority (ty : String) : Nat :=
  if ty = "Deep Work" then 1
  else if ty = "Creative" then 2
  else if ty = "Shallow" then 3
  else 3

/-- `mood.lower()`: per-character lowercasing.  `Char.toLower` covers the
ASCII range, which agrees with Python's `str.lower` on every character of the
mood literals the code compares against; all theorems below quantify over an
arbitrary (already lowercased or not) mood string, so nothing depends on the
case mapping outside ASCII. -/
def pyLower (s : String) : String :=
  String.mk (s.data.map Char.toLower)

/-- The zone-selection conditional of `assign_slots_with_breaks` (lines 96-110
of `backend/main.py`); `moodLower` is `mood.lower()`. -/
def zoneFor (tType : String) (energy : Int) (moodLower : String) : Zone :=
  if tType = "Deep Work" then
    if 7 ≤ energy ∧ ¬ moodLower ∈ ["tired", "low"] then .high
    else if 4 ≤ energy then .medium
    else .low
  else if tType = "Creative" then
    if moodLower ∈ ["happy", "excited", "inspired"] then
      if 5 ≤ energy then .high else .medium
    else
      if 5 ≤ energy then .medium else .low
  else
    if 5 ≤ energy then .medium else .low

/-- The synthesized overflow label tried at counter value `c`:
`f"{all_slots_flat[c % len(all_slots_flat)]} (+{c // len(all_slots_flat) + 1})"`. -/
def extLabel (c : Nat) : String :=
  allSlotsFlat.getD (c % allSlotsFlat.length) "" ++ " (+" ++ Nat.repr (c / allSlotsFlat.length + 1) ++ ")"

/-- The `while True` overflow-search loop of `assign_slots_with_breaks`
(lines 118-124), as a fueled search: try `extLabel counter`, advance the
counter, stop at the first label not yet used.  `findExtFuel_spec` below
shows the fuel supplied by `overflowFuel` is never exhausted, so this equals
the source's unbounded loop. -/
def findExtFuel (used : List String) : Nat → Nat → String × Nat
  | 0, counter => ("", counter)
  | fuel + 1, counter =>
    let newSlot := extLabel counter
    if newSlot ∈ used then findExtFuel used fuel (counter + 1)
    else (newSlot, counter + 1)

/-- Length of the longest string in `used` (0 if empty). -/
def maxLen (used : List String) : Nat :=
  used.foldr (fun s acc => max s.length acc) 0

/-- Enough fuel for `findExtFuel`: within this many candidates one has a
decimal suffix longer than every string in `used`, hence is fresh. -/
def overflowFuel (used : List String) : Nat :=
  12 * 10 ^ (maxLen used + 1) + 1

/-- Slot claiming for one task (lines 112-126): first unused label of the
selected zone, else the overflow search. -/
def claimSlot (zone : Zone) (used : List String) (counter : Nat) : String × Nat :=
  match (zoneSlots zone).find? (fun s => !used.contains s) with
  | some s => (s, counter)
  | none => findExtFuel used (overflowFuel used) counter

/-- The label `f"Break (+{counter})"` used when a break is inserted with every
base label claimed. -/
def breakLabel (c : Nat) : String :=
  "Break (+" ++ Nat.repr c ++ ")"

/-- Slot claiming for an inserted break (lines 139-142): first unused label of
the flattened base list, else the literal label `f"Break (+{counter})"` with
the counter incremented afterwards. -/
def breakClaim (used : List String) (counter : Nat) : String × Nat :=
  match allSlotsFlat.find? (fun s => !used.contains s) with
  | some s => (s, counter)
  | none => (breakLabel counter, counter + 1)

/-- Task text of an inserted break entry. -/
def breakTaskText : String := "Take a short break"

/-- Reason text of an inserted break entry. -/
def breakReason : String := "Recharge before next deep work session"

/-- The key comparison of `sorted(tasks, key=lambda t: type_priority.get(t.get('type', ''), 3))`. -/
def taskLE (t₁ t₂ : TaskDict) : Prop :=
  typePriority (t₁.type.getD "") ≤ typePriority (t₂.type.getD "")

instance : DecidableRel taskLE := fun t₁ t₂ =>
  Nat.decLe (typePriority (t₁.type.getD "")) (typePriority (t₂.type.getD ""))

/-- `tasks_sorted`: Python's `sorted` is a stable sort; `insertionSort` with
the non-strict key comparison is the stable sort by that key. -/
def tasksSorted (tasks : List TaskDict) : List TaskDict :=
  List.insertionSort taskLE tasks

/-- The mutable state of the `for task in tasks_sorted` loop. -/
structure LoopState where
  schedule : List Entry
  used : List String
  deepWorkCount : Nat
  counter : Nat
deriving DecidableEq

/-- One iteration of the loop body of `assign_slots_with_breaks`
(lines 93-149): claim a slot, append the entry, and after every second
"Deep Work" task claim a slot for and append a break entry. -/
def step (energy : Int) (moodLower : String) (st : LoopState) (task : TaskDict) : LoopState :=
  let tType := task.type.getD ""
  let zone := zoneFor tType energy moodLower
  let claimed := claimSlot zone st.used st.counter
  let slot := claimed.1
  let counter₁ := claimed.2
  let used₁ := slot :: st.used
  let schedule₁ := st.schedule ++ [⟨slot, task.task.getD "", tType, task.reason.getD ""⟩]
  if tType = "Deep Work" then
    let dw := st.deepWorkCount + 1
    if dw % 2 = 0 then
      let claimedB := breakClaim used₁ counter₁
      { schedule := schedule₁ ++ [⟨claimedB.1, breakTaskText, "Break", breakReason⟩],
        used := claimedB.1 :: used₁,
        deepWorkCount := dw,
        counter := claimedB.2 }
    else
      { schedule := schedule₁, used := used₁, deepWorkCount := dw, counter := counter₁ }
  else
    { schedule := schedule₁, used := used₁, deepWorkCount := st.deepWorkCount, counter := counter₁ }

/-- `assign_slots_with_breaks(tasks, energy, mood)` (lines 76-151). -/
def assign_slots_with_breaks (tasks : List TaskDict) (energy : Int) (mood : String) : List Entry :=
  ((tasksSorted tasks).foldl (step energy (pyLower mood)) ⟨[], [], 0, 0⟩).schedule

/-- Outcome of the classifier call plus JSON parse in `generate_schedule`:
the call raised (caught by `except`), the parse produced a non-list value, or
it produced a list of task dicts. -/
inductive ClassifierOutcome where
  | failure
  | nonListJson
  | parsedList (tasks : List TaskDict)
deriving DecidableEq

/-- The fallback `[{"task": t, "type": "Unknown", "reason": ""} for t in input.tasks]`. -/
def fallbackClassification (tasks : List String) : List TaskDict :=
  tasks.map (fun t => { task := some t, type := some "Unknown", reason := some "" })

/-- `generate_schedule(input)` (lines 164-225), with the effectful classifier
call abstracted as `outcome`. -/
def generate_schedule (outcome : ClassifierOutcome) (tasks : List String) (energy : Int)
    (mood : String) : List Entry :=
  let schedule :=
    match outcome with
    | .parsedList parsed => parsed
    | .failure => fallbackClassification tasks
    | .nonListJson => fallbackClassification tasks
  assign_slots_with_breaks schedule energy mood

/-- One value of the `_realtime_sessions` dict. -/
structure Session where
  inputTasks : List String
  energy : Int
  mood : String
  classified_tasks : List TaskDict
  current_schedule : List Entry
  skipped : List TaskDict
deriving DecidableEq

/-- The `_realtime_sessions` dict, as an association list. -/
abbrev SessionStore := List (String × Session)

/-- Dict lookup `_realtime_sessions[sid]` / the `sid in _realtime_sessions` test. -/
def storeGet (store : SessionStore) (sid : String) : Option Session :=
  (store.find? (fun p => p.1 == sid)).map (·.2)

/-- Dict write to an existing key (Python mutates the session in place). -/
def storeSet (store : SessionStore) (sid : String) (sess : Session) : SessionStore :=
  store.map (fun p => if p.1 == sid then (sid, sess) else p)

/-- `realtime_start(input)` (lines 276-307), with the classifier outcome and
the `uuid4` session id abstracted as parameters.  Returns the new store, the
session id and the returned schedule. -/
def realtime_start (outcome : ClassifierOutcome) (tasks : List String) (energy : Int)
    (mood : String) (sid : String) (store : SessionStore) :
    SessionStore × String × List Entry :=
  let schedule_list := generate_schedule outcome tasks energy mood
  let classified := schedule_list.map (fun item =>
    ({ task := some item.task, type := some item.type, reason := some item.reason } : TaskDict))
  let sess : Session :=
    { inputTasks := tasks, energy := energy, mood := mood,
      classified_tasks := classified, current_schedule := schedule_list, skipped := [] }
  (store ++ [(sid, sess)], sid, schedule_list)

/-- Result payload of `realtime_update`. -/
inductive UpdateResult where
  | ok (schedule : List Entry) (skippedCount : Nat)
  | err (name : String)
deriving DecidableEq

/-- `realtime_update(payload)` (lines 318-357).  Note the source pops the
indexed task from `classified_tasks` before validating `action`, so the
`invalid_action` branch still stores the session with that task removed. -/
def realtime_update (store : SessionStore) (sid : String) (taskIndex : Int) (action : String) :
    SessionStore × UpdateResult :=
  match storeGet store sid with
  | none => (store, .err "session_not_found")
  | some sess =>
    if taskIndex < 0 ∨ (sess.classified_tasks.length : Int) ≤ taskIndex then
      (store, .err "invalid_task_index")
    else
      let idx := taskIndex.toNat
      let taskObj := (sess.classified_tasks.get? idx).getD ⟨none, none, none⟩
      let remaining := sess.classified_tasks.eraseIdx idx
      if action = "completed" then
        let newSchedule := assign_slots_with_breaks remaining sess.energy sess.mood
        let sess' := { sess with classified_tasks := remaining, current_schedule := newSchedule }
        (storeSet store sid sess', .ok newSchedule sess.skipped.length)
      else if action = "skipped" then
        let newSchedule := assign_slots_with_breaks remaining sess.energy sess.mood
        let skipped' := sess.skipped ++ [taskObj]
        let sess' := { sess with
          classified_tasks := remaining
          current_schedule := newSchedule
          skipped := skipped' }
        (storeSet store sid sess', .ok newSchedule skipped'.length)
      else
        let sess' := { sess with classified_tasks := remaining }
        (storeSet store sid sess', .err "invalid_action")

/-- The fields of a schedule entry other than the slot label. -/
def Entry.proj (en : Entry) : String × String × String := (en.task, en.type, en.reason)

/-- A task dict with its missing fields defaulted as the code defaults them. -/
def TaskDict.normalize (t : TaskDict) : String × String × String :=
  (t.task.getD "", t.type.getD "", t.reason.getD "")

/-- Number of tasks whose `type` field is exactly "Deep Work". -/
def countDeepWork (tasks : List TaskDict) : Nat :=
  (tasks.filter (fun t => t.type.getD "" == "Deep Work")).length

/-- The slot-free shape of the schedule emitted for a task list, given the
deep-work count accumulated so far: each task contributes its projected
entry, and each second "Deep Work" task is followed by a break entry. -/
def shape (dw : Nat) : List TaskDict → List (String × String × String)
  | [] => []
  | t :: ts =>
    let tType := t.type.getD ""
    let e := (t.task.getD "", tType, t.reason.getD "")
    if tType = "Deep Work" then
      if (dw + 1) % 2 = 0 then
        e :: (breakTaskText, "Break", breakReason) :: shape (dw + 1) ts
      else
        e :: shape (dw + 1) ts
    else
      e :: shape dw ts

/-- Radix-10 value of a character list, reading each character as the decimal
digit it renders. -/
def decVal (l : List Char) : Nat :=
  l.foldl (fun a c => a * 10 + (c.toNat - 48)) 0

/-- Every label ever added to `used_slots` is a base label, a synthesized
overflow label, or a break-overflow label whose index is below the current
extension counter. -/
def labelOk (counter : Nat) (s : String) : Prop :=
  s ∈ allSlotsFlat ∨ (∃ k, s = extLabel k) ∨ (∃ c, c < counter ∧ s = breakLabel c)

/-- Loop invariant: `used_slots` mirrors the emitted slot labels, has no
duplicates, and every label in it has one of the three recognised shapes. -/
def Inv (st : LoopState) : Prop :=
  st.used = (st.schedule.map Entry.time).reverse ∧ st.used.Nodup ∧
    ∀ s ∈ st.used, labelOk st.counter s

instance : IsTotal TaskDict taskLE :=
  ⟨fun a b => Nat.le_total (typePriority (a.type.getD "")) (typePriority (b.type.getD ""))⟩

instance : IsTrans TaskDict taskLE :=
  ⟨fun _ _ _ h₁ h₂ => Nat.le_trans h₁ h₂⟩

/-- A Shallow-typed task dict used in concrete evaluations. -/
def shallowTask : TaskDict := ⟨some "t", some "Shallow", some "r"⟩

/-- Five Shallow tasks: enough to exhaust the Medium zone with energy 5. -/
def shallow5 : List TaskDict := List.replicate 5 shallowTask

/-- Twenty "Deep Work" tasks: enough that a break insertion finds every base
label claimed. -/
def dw20 : List TaskDict := List.replicate 20 ⟨some "t", some "Deep Work", some "r"⟩

/-- Three "Deep Work" tasks for break-placement evaluation. -/
def dw3 : List TaskDict :=
  [⟨some "a", some "Deep Work", some "ra"⟩, ⟨some "b", some "Deep Work", some "rb"⟩,
    ⟨some "c", some "Deep Work", some "rc"⟩]

/-- Two "Deep Work" classifier results, as parsed classifier output. -/
def dwPair : List TaskDict :=
  [⟨some "A", some "Deep Work", some "ra"⟩, ⟨some "B", some "Deep Work", some "rb"⟩]

/-- A task dict carrying the reserved type "Break", as the realtime layer can
store after a schedule containing a break is mirrored into a session. -/
def breakTypedTask : TaskDict := ⟨some "fake", some "Break", some "r"⟩

/-- A one-task session for the realtime update counterexample. -/
def sessA : Session :=
  { inputTasks := ["a"], energy := 5, mood := "ok",
    classified_tasks := [⟨some "a", some "Shallow", some "r"⟩],
    current_schedule := [⟨"1 PM", "a", "Shallow", "r"⟩], skipped := [] }

/-- A store holding `sessA` under session id "s". -/
def storeA : SessionStore := [("s", sessA)]

/-! ### Decimal rendering facts

`Nat.repr` is the embedding of Python's decimal interpolation of an integer
into an f-string.  Injectivity is proved by recovering the number from the
rendered digit list. -/

theorem digitChar_val : ∀ k, k < 10 → (Nat.digitChar k).toNat - 48 = k := by decide

theorem digitChar_le : ∀ k, k < 10 → (Nat.digitChar k).toNat - 48 ≤ 9 := by decide

theorem toDigitsCore_foldl (fuel : Nat) : ∀ (n : Nat) (ds : List Char), n < 10 ^ fuel →
    (Nat.toDigitsCore 10 fuel n ds).foldl (fun a c => a * 10 + (c.toNat - 48)) 0
      = ds.foldl (fun a c => a * 10 + (c.toNat - 48)) n := by
  induction fuel with
  | zero =>
    intro n ds h
    simp only [pow_zero, Nat.lt_one_iff] at h
    subst h
    simp [Nat.toDigitsCore]
  | succ fuel ih =>
    intro n ds h
    by_cases h0 : n / 10 = 0
    · have hn : n < 10 := by omega
      have : Nat.toDigitsCore 10 (fuel + 1) n ds = Nat.digitChar (n % 10) :: ds := by
        simp [Nat.toDigitsCore, h0]
      rw [this]
      simp only [List.foldl_cons]
      rw [digitChar_val (n % 10) (by omega)]
      have : 0 * 10 + n % 10 = n := by omega
      rw [this]
    · have : Nat.toDigitsCore 10 (fuel + 1) n ds
          = Nat.toDigitsCore 10 fuel (n / 10) (Nat.digitChar (n % 10) :: ds) := by
        simp [Nat.toDigitsCore, h0]
      rw [this]
      have hlt : n / 10 < 10 ^ fuel := by
        have : n < 10 * 10 ^ fuel := by
          have := h
          rw [pow_succ] at this
          omega
        omega
      rw [ih (n / 10) (Nat.digitChar (n % 10) :: ds) hlt]
      simp only [List.foldl_cons]
      rw [digitChar_val (n % 10) (by omega)]
      have : n / 10 * 10 + n % 10 = n := by omega
      rw [this]

theorem decVal_toDigits (n : Nat) : decVal (Nat.toDigits 10 n) = n := by
  have h : n < 10 ^ (n + 1) :=
    lt_of_lt_of_le (Nat.lt_pow_self (by norm_num) n)
      (Nat.pow_le_pow_right (by norm_num) (Nat.le_succ n))
  simpa [decVal, Nat.toDigits] using toDigitsCore_foldl (n + 1) n [] h

theorem reprInj {m n : Nat} (h : Nat.repr m = Nat.repr n) : m = n := by
  have hd : Nat.toDigits 10 m = Nat.toDigits 10 n := by
    have h2 := congrArg String.data h
    simpa [Nat.repr, List.asString] using h2
  calc m = decVal (Nat.toDigits 10 m) := (decVal_toDigits m).symm
    _ = decVal (Nat.toDigits 10 n) := by rw [hd]
    _ = n := decVal_toDigits n

theorem toDigitsCore_digits (fuel : Nat) : ∀ (n : Nat) (ds : List Char),
    (∀ c ∈ ds, c.toNat - 48 ≤ 9) →
    ∀ c ∈ Nat.toDigitsCore 10 fuel n ds, c.toNat - 48 ≤ 9 := by
  induction fuel with
  | zero =>
    intro n ds hds
    simp only [Nat.toDigitsCore]
    exact hds
  | succ fuel ih =>
    intro n ds hds
    have hcons : ∀ c ∈ Nat.digitChar (n % 10) :: ds, c.toNat - 48 ≤ 9 := by
      intro c hc
      rcases List.mem_cons.mp hc with h | h
      · subst h
        exact digitChar_le (n % 10) (by omega)
      · exact hds c h
    by_cases h0 : n / 10 = 0
    · have : Nat.toDigitsCore 10 (fuel + 1) n ds = Nat.digitChar (n % 10) :: ds := by
        simp [Nat.toDigitsCore, h0]
      rw [this]
      exact hcons
    · have : Nat.toDigitsCore 10 (fuel + 1) n ds
          = Nat.toDigitsCore 10 fuel (n / 10) (Nat.digitChar (n % 10) :: ds) := by
        simp [Nat.toDigitsCore, h0]
      rw [this]
      exact ih (n / 10) _ hcons

theorem foldl_decVal_lt : ∀ (l : List Char) (a : Nat), (∀ c ∈ l, c.toNat - 48 ≤ 9) →
    l.foldl (fun a c => a * 10 + (c.toNat - 48)) a < 10 ^ l.length * (a + 1) := by
  intro l
  induction l with
  | nil =>
    intro a _
    simp only [List.foldl_nil, List.length_nil, pow_zero, Nat.one_mul]
    exact Nat.lt_succ_self a
  | cons c l ih =>
    intro a h
    have hc : c.toNat - 48 ≤ 9 := h c (List.mem_cons_self c l)
    have hrest : ∀ x ∈ l, x.toNat - 48 ≤ 9 := fun x hx => h x (List.mem_cons_of_mem c hx)
    simp only [List.foldl_cons, List.length_cons]
    calc l.foldl (fun a c => a * 10 + (c.toNat - 48)) (a * 10 + (c.toNat - 48))
        < 10 ^ l.length * (a * 10 + (c.toNat - 48) + 1) := ih _ hrest
      _ ≤ 10 ^ l.length * ((a + 1) * 10) := Nat.mul_le_mul_left _ (by omega)
      _ = 10 ^ (l.length + 1) * (a + 1) := by rw [pow_succ]; ring

theorem decVal_lt (l : List Char) (h : ∀ c ∈ l, c.toNat - 48 ≤ 9) :
    decVal l < 10 ^ l.length := by
  simpa [decVal] using foldl_decVal_lt l 0 h

theorem repr_length_lower {k n : Nat} (h : 10 ^ k ≤ n) : k < (Nat.repr n).length := by
  have h1 : decVal (Nat.toDigits 10 n) = n := decVal_toDigits n
  have h2 : decVal (Nat.toDigits 10 n) < 10 ^ (Nat.toDigits 10 n).length :=
    decVal_lt _ (toDigitsCore_digits (n + 1) n [] (by simp))
  have hlen : (Nat.repr n).length = (Nat.toDigits 10 n).length := by
    simp [Nat.repr, List.asString, String.length]
  rw [hlen]
  have : 10 ^ k < 10 ^ (Nat.toDigits 10 n).length := lt_of_le_of_lt (by rw [h1]; exact h) h2
  exact (Nat.pow_lt_pow_iff_right (by norm_num)).mp this

/-! ### The overflow search terminates within its fuel -/

theorem length_le_maxLen : ∀ {used : List String} {s : String}, s ∈ used → s.length ≤ maxLen used := by
  intro used
  induction used with
  | nil => intro s h; cases h
  | cons x xs ih =>
    intro s h
    rcases List.mem_cons.mp h with h | h
    · subst h
      simp [maxLen]
    · have := ih h
      simp only [maxLen, List.foldr_cons] at *
      omega

theorem extLabel_length (c : Nat) :
    (Nat.repr (c / allSlotsFlat.length + 1)).length ≤ (extLabel c).length := by
  simp only [extLabel, String.length_append]
  omega

theorem exists_fresh (used : List String) (counter : Nat) :
    ∃ k, k < overflowFuel used ∧ extLabel (counter + k) ∉ used := by
  refine ⟨12 * 10 ^ (maxLen used + 1), by simp [overflowFuel], ?_⟩
  intro hmem
  have hlen := length_le_maxLen hmem
  have hflat : allSlotsFlat.length = 12 := by decide
  have hdiv : 10 ^ (maxLen used + 1)
      ≤ (counter + 12 * 10 ^ (maxLen used + 1)) / allSlotsFlat.length + 1 := by
    rw [hflat]
    omega
  have hlow := repr_length_lower hdiv
  have hext := extLabel_length (counter + 12 * 10 ^ (maxLen used + 1))
  omega

theorem findExtFuel_spec : ∀ (fuel : Nat) (used : List String) (counter : Nat),
    (∃ k, k < fuel ∧ extLabel (counter + k) ∉ used) →
    ∃ c, counter ≤ c ∧ extLabel c ∉ used ∧
      (∀ c', counter ≤ c' → c' < c → extLabel c' ∈ used) ∧
      findExtFuel used fuel counter = (extLabel c, c + 1) := by
  intro fuel
  induction fuel with
  | zero =>
    intro used counter h
    obtain ⟨k, hk, -⟩ := h
    omega
  | succ fuel ih =>
    intro used counter h
    by_cases hm : extLabel counter ∈ used
    · obtain ⟨k, hk, hfresh⟩ := h
      have hk0 : k ≠ 0 := by
        intro h0
        subst h0
        simp at hfresh
        exact hfresh hm
      obtain ⟨k', rfl⟩ : ∃ k', k = k' + 1 := ⟨k - 1, by omega⟩
      obtain ⟨c, hc1, hc2, hc3, hc4⟩ := ih used (counter + 1)
        ⟨k', by omega, by
          have : counter + 1 + k' = counter + (k' + 1) := by omega
          rw [this]
          exact hfresh⟩
      refine ⟨c, by omega, hc2, ?_, ?_⟩
      · intro c' h1 h2
        rcases Nat.eq_or_lt_of_le h1 with h3 | h3
        · rw [← h3]
          exact hm
        · exact hc3 c' h3 h2
      · simp only [findExtFuel, hm, if_pos]
        exact hc4
    · refine ⟨counter, Nat.le_refl _, hm, by omega, ?_⟩
      simp [findExtFuel, hm]

theorem overflow_spec (used : List String) (counter : Nat) :
    ∃ c, counter ≤ c ∧ extLabel c ∉ used ∧
      (∀ c', counter ≤ c' → c' < c → extLabel c' ∈ used) ∧
      findExtFuel used (overflowFuel used) counter = (extLabel c, c + 1) := by
  apply findExtFuel_spec
  obtain ⟨k, h1, h2⟩ := exists_fresh used counter
  exact ⟨k, h1, h2⟩

/-! ### The three label shapes are pairwise distinguishable -/

theorem breakLabel_data (c : Nat) : (breakLabel c).data
    = ['B', 'r', 'e', 'a', 'k', ' ', '(', '+'] ++ ((Nat.repr c).data ++ [')']) := by
  have h1 : ("Break (+" : String).data = ['B', 'r', 'e', 'a', 'k', ' ', '(', '+'] := rfl
  have h2 : (")" : String).data = [')'] := rfl
  simp [breakLabel, h1, h2]

theorem breakLabel_head (c : Nat) : (breakLabel c).data.head? = some 'B' := by
  rw [breakLabel_data]
  rfl

theorem breakLabel_inj {c c' : Nat} (h : breakLabel c = breakLabel c') : c = c' := by
  have hd := congrArg String.data h
  rw [breakLabel_data, breakLabel_data] at hd
  have h2 := List.append_cancel_left hd
  have h3 := (List.append_inj' h2 rfl).1
  have h4 : Nat.toDigits 10 c = Nat.toDigits 10 c' := h3
  calc c = decVal (Nat.toDigits 10 c) := (decVal_toDigits c).symm
    _ = decVal (Nat.toDigits 10 c') := by rw [h4]
    _ = c' := decVal_toDigits c'

theorem flat_ne_breakLabel : ∀ s ∈ allSlotsFlat, ∀ c : Nat, s ≠ breakLabel c := by
  intro s hs c heq
  have hh : s.data.head? = some 'B' := by rw [heq]; exact breakLabel_head c
  rw [show allSlotsFlat = (energySlotsHigh ++ energySlotsMedium) ++ energySlotsLow from rfl] at hs
  rcases List.mem_append.mp hs with h | h
  · rcases List.mem_append.mp h with h | h
    · simp only [energySlotsHigh] at h
      fin_cases h <;> exact absurd hh (by decide)
    · simp only [energySlotsMedium] at h
      fin_cases h <;> exact absurd hh (by decide)
  · simp only [energySlotsLow] at h
    fin_cases h <;> exact absurd hh (by decide)

theorem ext_ne_breakLabel (k c : Nat) : extLabel k ≠ breakLabel c := by
  intro heq
  have hh : (extLabel k).data.head? = some 'B' := by rw [heq]; exact breakLabel_head c
  have h12 : k % allSlotsFlat.length < 12 := Nat.mod_lt _ (by decide)
  simp only [extLabel] at hh
  obtain ⟨i, hi, hrw⟩ : ∃ i, i < 12 ∧ k % allSlotsFlat.length = i := ⟨_, h12, rfl⟩
  rw [hrw] at hh
  interval_cases i <;> exact absurd (Option.some.inj hh) (by decide)

theorem zoneSlots_subset : ∀ (z : Zone), ∀ s ∈ zoneSlots z, s ∈ allSlotsFlat := by
  intro z s hs
  rw [show allSlotsFlat = (energySlotsHigh ++ energySlotsMedium) ++ energySlotsLow from rfl]
  cases z with
  | high => exact List.mem_append_left _ (List.mem_append_left _ hs)
  | medium => exact List.mem_append_left _ (List.mem_append_right _ hs)
  | low => exact List.mem_append_right _ hs

/-! ### Distinctness invariant of the scheduling loop -/

theorem labelOk_mono {counter counter' : Nat} (h : counter ≤ counter') {s : String}
    (hs : labelOk counter s) : labelOk counter' s := by
  rcases hs with h1 | h1 | ⟨c, hc, rfl⟩
  · exact Or.inl h1
  · exact Or.inr (Or.inl h1)
  · exact Or.inr (Or.inr ⟨c, by omega, rfl⟩)

theorem find?_not_contains_spec {l used : List String} {s : String}
    (h : l.find? (fun s => !used.contains s) = some s) : s ∈ l ∧ s ∉ used := by
  refine ⟨List.mem_of_find?_eq_some h, ?_⟩
  have hp := List.find?_some h
  simp only [Bool.not_eq_true'] at hp
  intro hmem
  rw [show used.contains s = true from List.elem_iff.mpr hmem] at hp
  cases hp

theorem claimSlot_spec (zone : Zone) (used : List String) (counter : Nat) :
    (claimSlot zone used counter).1 ∉ used ∧ counter ≤ (claimSlot zone used counter).2 ∧
      ((claimSlot zone used counter).1 ∈ allSlotsFlat ∨
        ∃ k, (claimSlot zone used counter).1 = extLabel k) := by
  cases hf : (zoneSlots zone).find? (fun s => !used.contains s) with
  | some s =>
    simp only [claimSlot, hf]
    obtain ⟨hmem, hfresh⟩ := find?_not_contains_spec hf
    exact ⟨hfresh, Nat.le_refl _, Or.inl (zoneSlots_subset zone s hmem)⟩
  | none =>
    simp only [claimSlot, hf]
    obtain ⟨c, hc1, hc2, -, hc4⟩ := overflow_spec used counter
    rw [hc4]
    exact ⟨hc2, by omega, Or.inr ⟨c, rfl⟩⟩

theorem breakClaim_spec (used : List String) (counter : Nat)
    (hok : ∀ s ∈ used, labelOk counter s) :
    (breakClaim used counter).1 ∉ used ∧ counter ≤ (breakClaim used counter).2 ∧
      labelOk (breakClaim used counter).2 (breakClaim used counter).1 ∧
      ∀ s ∈ used, labelOk (breakClaim used counter).2 s := by
  cases hf : allSlotsFlat.find? (fun s => !used.contains s) with
  | some s =>
    simp only [breakClaim, hf]
    obtain ⟨hmem, hfresh⟩ := find?_not_contains_spec hf
    exact ⟨hfresh, Nat.le_refl _, Or.inl hmem, hok⟩
  | none =>
    simp only [breakClaim, hf]
    refine ⟨?_, by omega, Or.inr (Or.inr ⟨counter, by omega, rfl⟩),
      fun s hs => labelOk_mono (by omega) (hok s hs)⟩
    intro hmem
    rcases hok _ hmem with h1 | ⟨k, h1⟩ | ⟨c, hc, h1⟩
    · exact flat_ne_breakLabel _ h1 counter rfl
    · exact ext_ne_breakLabel k counter h1.symm
    · exact absurd (breakLabel_inj h1.symm) (by omega)

/-- Case equation of `step` for a non-"Deep Work" task. -/
theorem step_eq_other {t : TaskDict} (e : Int) (mL : String) (st : LoopState)
    (hdw : ¬ t.type.getD "" = "Deep Work") :
    step e mL st t =
      { schedule := st.schedule ++
          [⟨(claimSlot (zoneFor (t.type.getD "") e mL) st.used st.counter).1,
            t.task.getD "", t.type.getD "", t.reason.getD ""⟩],
        used := (claimSlot (zoneFor (t.type.getD "") e mL) st.used st.counter).1 :: st.used,
        deepWorkCount := st.deepWorkCount,
        counter := (claimSlot (zoneFor (t.type.getD "") e mL) st.used st.counter).2 } := by
  simp [step, hdw]

/-- Case equation of `step` for a "Deep Work" task that does not complete a
pair. -/
theorem step_eq_dw_odd {t : TaskDict} (e : Int) (mL : String) (st : LoopState)
    (hdw : t.type.getD "" = "Deep Work") (hpar : ¬ (st.deepWorkCount + 1) % 2 = 0) :
    step e mL st t =
      { schedule := st.schedule ++
          [⟨(claimSlot (zoneFor (t.type.getD "") e mL) st.used st.counter).1,
            t.task.getD "", t.type.getD "", t.reason.getD ""⟩],
        used := (claimSlot (zoneFor (t.type.getD "") e mL) st.used st.counter).1 :: st.used,
        deepWorkCount := st.deepWorkCount + 1,
        counter := (claimSlot (zoneFor (t.type.getD "") e mL) st.used st.counter).2 } := by
  simp [step, hdw, hpar]

/-- Case equation of `step` for a "Deep Work" task that completes a pair and
so is followed by a break. -/
theorem step_eq_dw_even {t : TaskDict} (e : Int) (mL : String) (st : LoopState)
    (hdw : t.type.getD "" = "Deep Work") (hpar : (st.deepWorkCount + 1) % 2 = 0) :
    step e mL st t =
      { schedule := (st.schedule ++
          [⟨(claimSlot (zoneFor (t.type.getD "") e mL) st.used st.counter).1,
            t.task.getD "", t.type.getD "", t.reason.getD ""⟩]) ++
          [⟨(breakClaim ((claimSlot (zoneFor (t.type.getD "") e mL) st.used st.counter).1 :: st.used)
              (claimSlot (zoneFor (t.type.getD "") e mL) st.used st.counter).2).1,
            breakTaskText, "Break", breakReason⟩],
        used := (breakClaim ((claimSlot (zoneFor (t.type.getD "") e mL) st.used st.counter).1 :: st.used)
              (claimSlot (zoneFor (t.type.getD "") e mL) st.used st.counter).2).1 ::
          (claimSlot (zoneFor (t.type.getD "") e mL) st.used st.counter).1 :: st.used,
        deepWorkCount := st.deepWorkCount + 1,
        counter := (breakClaim ((claimSlot (zoneFor (t.type.getD "") e mL) st.used st.counter).1 :: st.used)
              (claimSlot (zoneFor (t.type.getD "") e mL) st.used st.counter).2).2 } := by
  simp [step, hdw, hpar]

theorem step_inv (e : Int) (mL : String) (st : LoopState) (t : TaskDict) (h : Inv st) :
    Inv (step e mL st t) := by
  obtain ⟨hrev, hnd, hok⟩ := h
  obtain ⟨hfresh, hle, hshape⟩ := claimSlot_spec (zoneFor (t.type.getD "") e mL) st.used st.counter
  have hok₁ : ∀ s ∈ (claimSlot (zoneFor (t.type.getD "") e mL) st.used st.counter).1 :: st.used,
      labelOk (claimSlot (zoneFor (t.type.getD "") e mL) st.used st.counter).2 s := by
    intro s hs
    rcases List.mem_cons.mp hs with rfl | hs
    · rcases hshape with h1 | ⟨k, h1⟩
      · exact Or.inl h1
      · exact Or.inr (Or.inl ⟨k, h1⟩)
    · exact labelOk_mono hle (hok s hs)
  have hnd₁ : ((claimSlot (zoneFor (t.type.getD "") e mL) st.used st.counter).1 :: st.used).Nodup :=
    List.nodup_cons.mpr ⟨hfresh, hnd⟩
  by_cases hdw : t.type.getD "" = "Deep Work"
  · by_cases hpar : (st.deepWorkCount + 1) % 2 = 0
    · rw [step_eq_dw_even e mL st hdw hpar]
      obtain ⟨hbfresh, hble, hbok, hbused⟩ :=
        breakClaim_spec ((claimSlot (zoneFor (t.type.getD "") e mL) st.used st.counter).1 :: st.used)
          (claimSlot (zoneFor (t.type.getD "") e mL) st.used st.counter).2 hok₁
      refine ⟨?_, List.nodup_cons.mpr ⟨hbfresh, hnd₁⟩, ?_⟩
      · simp [hrev]
      · intro s hs
        rcases List.mem_cons.mp hs with rfl | hs
        · exact hbok
        · exact hbused s hs
    · rw [step_eq_dw_odd e mL st hdw hpar]
      exact ⟨by simp [hrev], hnd₁, hok₁⟩
  · rw [step_eq_other e mL st hdw]
    exact ⟨by simp [hrev], hnd₁, hok₁⟩

theorem foldl_inv (e : Int) (mL : String) :
    ∀ (ts : List TaskDict) (st : LoopState), Inv st → Inv (ts.foldl (step e mL) st) := by
  intro ts
  induction ts with
  | nil => intro st h; exact h
  | cons t ts ih =>
    intro st h
    exact ih _ (step_inv e mL st t h)

/-- **C1.** For every list of classified task dicts, every integer energy and
every mood string, the schedule returned by `assign_slots_with_breaks` has
pairwise-distinct slot (`time`) labels: no two entries (tasks or breaks)
share a label. -/
theorem C1_slot_labels_distinct (tasks : List TaskDict) (energy : Int) (mood : String) :
    ((assign_slots_with_breaks tasks energy mood).map Entry.time).Nodup := by
  have h := foldl_inv energy (pyLower mood) (tasksSorted tasks) ⟨[], [], 0, 0⟩
    ⟨rfl, List.nodup_nil, by intro s hs; cases hs⟩
  obtain ⟨hrev, hnd, -⟩ := h
  rw [hrev] at hnd
  exact List.nodup_reverse.mp hnd

/-! ### The slot-free shape of the emitted schedule -/

theorem schedule_proj_foldl (e : Int) (mL : String) :
    ∀ (ts : List TaskDict) (st : LoopState),
      ((ts.foldl (step e mL) st).schedule).map Entry.proj
        = st.schedule.map Entry.proj ++ shape st.deepWorkCount ts := by
  intro ts
  induction ts with
  | nil => intro st; simp [shape]
  | cons t ts ih =>
    intro st
    rw [List.foldl_cons, ih (step e mL st t)]
    by_cases hdw : t.type.getD "" = "Deep Work"
    · by_cases hpar : (st.deepWorkCount + 1) % 2 = 0
      · rw [step_eq_dw_even e mL st hdw hpar]
        simp [shape, hdw, hpar, Entry.proj]
      · rw [step_eq_dw_odd e mL st hdw hpar]
        simp [shape, hdw, hpar, Entry.proj]
    · rw [step_eq_other e mL st hdw]
      simp [shape, hdw, Entry.proj]

theorem assign_proj (tasks : List TaskDict) (energy : Int) (mood : String) :
    (assign_slots_with_breaks tasks energy mood).map Entry.proj
      = shape 0 (tasksSorted tasks) := by
  have h := schedule_proj_foldl energy (pyLower mood) (tasksSorted tasks) ⟨[], [], 0, 0⟩
  simpa [assign_slots_with_breaks] using h

theorem countDeepWork_cons (t : TaskDict) (ts : List TaskDict) :
    countDeepWork (t :: ts)
      = (if t.type.getD "" = "Deep Work" then 1 else 0) + countDeepWork ts := by
  by_cases h : t.type.getD "" = "Deep Work"
  · simp only [countDeepWork, List.filter_cons, h]
    simp
    omega
  · simp [countDeepWork, List.filter_cons, h]

theorem shape_length : ∀ (ts : List TaskDict) (dw : Nat),
    (shape dw ts).length = ts.length + ((dw + countDeepWork ts) / 2 - dw / 2) := by
  intro ts
  induction ts with
  | nil => intro dw; simp [shape, countDeepWork]
  | cons t ts ih =>
    intro dw
    rw [countDeepWork_cons]
    by_cases hdw : t.type.getD "" = "Deep Work"
    · by_cases hpar : (dw + 1) % 2 = 0
      · simp only [shape, hdw, if_pos, hpar, List.length_cons, ih (dw + 1)]
        omega
      · simp only [shape, hdw, if_pos, if_neg hpar, List.length_cons, ih (dw + 1)]
        omega
    · simp only [shape, if_neg hdw, List.length_cons, ih dw]
      omega

theorem countDeepWork_perm {l l' : List TaskDict} (h : l.Perm l') :
    countDeepWork l = countDeepWork l' :=
  (h.filter _).length_eq

theorem countDeepWork_tasksSorted (tasks : List TaskDict) :
    countDeepWork (tasksSorted tasks) = countDeepWork tasks :=
  countDeepWork_perm (List.perm_insertionSort taskLE tasks)

theorem assign_length (tasks : List TaskDict) (energy : Int) (mood : String) :
    (assign_slots_with_breaks tasks energy mood).length
      = tasks.length + countDeepWork tasks / 2 := by
  have h1 : (assign_slots_with_breaks tasks energy mood).length
      = ((assign_slots_with_breaks tasks energy mood).map Entry.proj).length := by
    rw [List.length_map]
  rw [h1, assign_proj, shape_length]
  rw [countDeepWork_tasksSorted]
  have h2 : (tasksSorted tasks).length = tasks.length :=
    (List.perm_insertionSort taskLE tasks).length_eq
  rw [h2]
  omega

/-! ### Stability of the priority sort -/

theorem filter_orderedInsert (p : TaskDict → Bool)
    (hp : ∀ x y, p x = true → p y = true → taskLE x y) (a : TaskDict) :
    ∀ l : List TaskDict, (List.orderedInsert taskLE a l).filter p
      = if p a = true then a :: l.filter p else l.filter p := by
  intro l
  induction l with
  | nil =>
    by_cases hpa : p a = true <;> simp [List.orderedInsert, List.filter_cons, hpa]
  | cons b l ih =>
    by_cases hab : taskLE a b
    · simp only [List.orderedInsert, if_pos hab]
      by_cases hpa : p a = true <;> by_cases hpb : p b = true <;>
        simp [List.filter_cons, hpa, hpb]
    · simp only [List.orderedInsert, if_neg hab]
      by_cases hpa : p a = true
      · by_cases hpb : p b = true
        · exact absurd (hp a b hpa hpb) hab
        · simp [List.filter_cons, hpa, hpb, ih]
      · by_cases hpb : p b = true <;> simp [List.filter_cons, hpa, hpb, ih]

theorem filter_insertionSort (p : TaskDict → Bool)
    (hp : ∀ x y, p x = true → p y = true → taskLE x y) :
    ∀ l : List TaskDict, (List.insertionSort taskLE l).filter p = l.filter p := by
  intro l
  induction l with
  | nil => rfl
  | cons a l ih =>
    rw [List.insertionSort, filter_orderedInsert p hp a, ih]
    by_cases hpa : p a = true <;> simp [List.filter_cons, hpa]

/-! ### Further shape facts -/

theorem shape_no_dw : ∀ (ts : List TaskDict) (dw : Nat),
    (∀ t ∈ ts, t.type.getD "" ≠ "Deep Work") →
    shape dw ts = ts.map (fun t => (t.task.getD "", t.type.getD "", t.reason.getD "")) := by
  intro ts
  induction ts with
  | nil => intro dw _; rfl
  | cons t ts ih =>
    intro dw h
    have ht := h t (List.mem_cons_self t ts)
    have hts : ∀ t' ∈ ts, t'.type.getD "" ≠ "Deep Work" :=
      fun t' h' => h t' (List.mem_cons_of_mem t h')
    simp [shape, ht, ih dw hts]

theorem shape_filter_not_break : ∀ (ts : List TaskDict) (dw : Nat),
    (shape dw ts).filter (fun x => !(x.2.1 == "Break"))
      = (ts.filter (fun t => !(t.type.getD "" == "Break"))).map
          (fun t => (t.task.getD "", t.type.getD "", t.reason.getD "")) := by
  intro ts
  induction ts with
  | nil => intro dw; rfl
  | cons t ts ih =>
    intro dw
    by_cases hdw : t.type.getD "" = "Deep Work"
    · have hnb : ¬ t.type.getD "" = "Break" := by rw [hdw]; decide
      by_cases hpar : (dw + 1) % 2 = 0
      · simp [shape, hdw, hpar, List.filter_cons, breakTaskText, breakReason, ih (dw + 1)]
      · simp [shape, hdw, hpar, List.filter_cons, hnb, ih (dw + 1)]
    · by_cases hnb : t.type.getD "" = "Break"
      · simp [shape, hdw, List.filter_cons, hnb, ih dw]
      · simp [shape, hdw, List.filter_cons, hnb, ih dw]

theorem shape_mem : ∀ (ts : List TaskDict) (dw : Nat) (x : String × String × String),
    x ∈ shape dw ts →
    x = (breakTaskText, "Break", breakReason) ∨
      ∃ t ∈ ts, x = (t.task.getD "", t.type.getD "", t.reason.getD "") := by
  intro ts
  induction ts with
  | nil => intro dw x h; cases h
  | cons t ts ih =>
    intro dw x h
    by_cases hdw : t.type.getD "" = "Deep Work"
    · by_cases hpar : (dw + 1) % 2 = 0
      · simp only [shape, hdw, if_pos, hpar] at h
        rcases List.mem_cons.mp h with rfl | h
        · exact Or.inr ⟨t, List.mem_cons_self t ts, by rw [hdw]⟩
        · rcases List.mem_cons.mp h with rfl | h
          · exact Or.inl rfl
          · rcases ih (dw + 1) x h with h' | ⟨t', ht', h'⟩
            · exact Or.inl h'
            · exact Or.inr ⟨t', List.mem_cons_of_mem t ht', h'⟩
      · simp only [shape, hdw, if_pos, if_neg hpar] at h
        rcases List.mem_cons.mp h with rfl | h
        · exact Or.inr ⟨t, List.mem_cons_self t ts, by rw [hdw]⟩
        · rcases ih (dw + 1) x h with h' | ⟨t', ht', h'⟩
          · exact Or.inl h'
          · exact Or.inr ⟨t', List.mem_cons_of_mem t ht', h'⟩
    · simp only [shape, if_neg hdw] at h
      rcases List.mem_cons.mp h with rfl | h
      · exact Or.inr ⟨t, List.mem_cons_self t ts, rfl⟩
      · rcases ih dw x h with h' | ⟨t', ht', h'⟩
        · exact Or.inl h'
        · exact Or.inr ⟨t', List.mem_cons_of_mem t ht', h'⟩

/-- **C5.** `assign_slots_with_breaks` is total: the returned schedule has
exactly one entry per task plus the inserted breaks (so every task is
assigned some slot, for task lists of any length), and the overflow-search
loop always terminates successfully: from any `used_slots` contents and any
counter it returns the first fresh synthesized label, never the out-of-fuel
default. -/
theorem C5_assign_total (tasks : List TaskDict) (energy : Int) (mood : String) :
    (assign_slots_with_breaks tasks energy mood).length
        = tasks.length + countDeepWork tasks / 2 ∧
      ∀ (used : List String) (counter : Nat), ∃ c, counter ≤ c ∧ extLabel c ∉ used ∧
        findExtFuel used (overflowFuel used) counter = (extLabel c, c + 1) := by
  refine ⟨assign_length tasks energy mood, fun used counter => ?_⟩
  obtain ⟨c, h1, h2, -, h4⟩ := overflow_spec used counter
  exact ⟨c, h1, h2, h4⟩

theorem fallback_sorted (tasks : List String) :
    tasksSorted (fallbackClassification tasks) = fallbackClassification tasks := by
  apply List.Sorted.insertionSort_eq
  show List.Pairwise taskLE (tasks.map _)
  exact List.pairwise_map.mpr
    (List.pairwise_of_forall (fun x y => by simp [taskLE, typePriority]))

/-- **C9.** If the classifier call raises or its output does not parse to a
JSON array, `generate_schedule` does not fail: it returns a schedule with
exactly one entry per input task text, in input order, each carrying type
"Unknown" and reason "", with no task dropped. -/
theorem C9_classifier_fallback (outcome : ClassifierOutcome) (tasks : List String)
    (energy : Int) (mood : String)
    (h : outcome = ClassifierOutcome.failure ∨ outcome = ClassifierOutcome.nonListJson) :
    (generate_schedule outcome tasks energy mood).map Entry.proj
      = tasks.map (fun t => (t, "Unknown", "")) := by
  have hsched : generate_schedule outcome tasks energy mood
      = assign_slots_with_breaks (fallbackClassification tasks) energy mood := by
    rcases h with rfl | rfl <;> rfl
  rw [hsched, assign_proj, fallback_sorted, shape_no_dw]
  · simp [fallbackClassification]
  · intro t ht
    simp only [fallbackClassification, List.mem_map] at ht
    obtain ⟨s, -, rfl⟩ := ht
    simp

/-- Witness for C9: a concrete failed classifier call on two tasks. -/
theorem C9_witness :
    (generate_schedule ClassifierOutcome.failure ["write essay", "sort mail"] 5 "ok").map
        Entry.proj
      = [("write essay", "Unknown", ""), ("sort mail", "Unknown", "")] :=
  C9_classifier_fallback ClassifierOutcome.failure ["write essay", "sort mail"] 5 "ok"
    (Or.inl rfl)

/-- **C10.** `assign_slots_with_breaks` never raises on degenerate input: for
any dicts with any of the keys missing, any integer energy (including zero
and negative values) and any mood string, it returns a schedule with one
entry per task plus the inserted breaks; every entry is either the inserted
break entry or carries some input task's fields with missing text and reason
defaulted to ""; and a missing or unrecognized type gets priority 3 and the
Shallow Medium/Low zone rule. -/
theorem C10_degenerate_input (tasks : List TaskDict) (energy : Int) (mood : String) :
    ((assign_slots_with_breaks tasks energy mood).length
        = tasks.length + countDeepWork tasks / 2) ∧
      (∀ en ∈ assign_slots_with_breaks tasks energy mood,
        (en.task = breakTaskText ∧ en.type = "Break" ∧ en.reason = breakReason) ∨
          ∃ t ∈ tasks, en.task = t.task.getD "" ∧ en.type = t.type.getD "" ∧
            en.reason = t.reason.getD "") ∧
      (∀ ty : String, ¬ ty = "Deep Work" → ¬ ty = "Creative" →
        typePriority ty = 3 ∧
          ∀ (e : Int) (mL : String), zoneFor ty e mL
            = if 5 ≤ e then Zone.medium else Zone.low) := by
  refine ⟨assign_length tasks energy mood, ?_, ?_⟩
  · intro en hen
    have hproj : Entry.proj en ∈ (assign_slots_with_breaks tasks energy mood).map Entry.proj :=
      List.mem_map_of_mem Entry.proj hen
    rw [assign_proj] at hproj
    rcases shape_mem _ 0 _ hproj with h | ⟨t, ht, h⟩
    · exact Or.inl ⟨congrArg Prod.fst h, congrArg (fun x => x.2.1) h,
        congrArg (fun x => x.2.2) h⟩
    · exact Or.inr ⟨t, (List.mem_insertionSort taskLE).mp ht, congrArg Prod.fst h,
        congrArg (fun x => x.2.1) h, congrArg (fun x => x.2.2) h⟩
  · intro ty h1 h2
    refine ⟨by simp [typePriority, h1, h2], fun e mL => by simp [zoneFor, h1, h2]⟩

/-- Synthesized overflow labels are never base labels (a base label is at
most 5 characters, an overflow label at least 9). -/
theorem ext_not_in_flat (c : Nat) : extLabel c ∉ allSlotsFlat := by
  intro hmem
  have h5 : (extLabel c).length ≤ 5 := by
    have hall : ∀ s ∈ allSlotsFlat, s.length ≤ 5 := by decide
    exact hall _ hmem
  have h12 : c % allSlotsFlat.length < 12 := Nat.mod_lt _ (by decide)
  have hb : 4 ≤ (allSlotsFlat.getD (c % allSlotsFlat.length) "").length := by
    have hall : ∀ i, i < 12 → 4 ≤ (allSlotsFlat.getD i "").length := by decide
    exact hall _ h12
  have hr : 0 < (Nat.repr (c / allSlotsFlat.length + 1)).length :=
    repr_length_lower (k := 0) (le_trans (by norm_num) (Nat.le_add_left 1 _))
  have hform : (extLabel c).length
      = (allSlotsFlat.getD (c % allSlotsFlat.length) "").length + 3
        + (Nat.repr (c / allSlotsFlat.length + 1)).length + 1 := by
    have hmid : (" (+" : String).length = 3 := rfl
    have hclose : (")" : String).length = 1 := rfl
    simp only [extLabel, String.length_append, hmid, hclose]
  omega

/-- **C4 (amended).** When a task's selected zone has no unclaimed base slot,
`assign_slots_with_breaks` does not fall back to other zones' base labels: it
immediately assigns the first fresh synthesized suffixed label (which is
never a base label), even if other zones still have unclaimed base labels.
Only break insertion scans the full flattened base list. -/
theorem C4_zone_exhausted_synthesizes (zone : Zone) (used : List String) (counter : Nat)
    (h : ∀ s ∈ zoneSlots zone, s ∈ used) :
    (claimSlot zone used counter).1 ∉ used ∧
      (claimSlot zone used counter).1 ∉ allSlotsFlat ∧
      ∃ c, counter ≤ c ∧ claimSlot zone used counter = (extLabel c, c + 1) := by
  have hf : (zoneSlots zone).find? (fun s => !used.contains s) = none := by
    rw [List.find?_eq_none]
    intro a ha
    simp
    exact h a ha
  simp only [claimSlot, hf]
  obtain ⟨c, h1, h2, -, h4⟩ := overflow_spec used counter
  rw [h4]
  exact ⟨h2, ext_not_in_flat c, c, h1, rfl⟩

/-- Witness for the amended C4: the Medium zone is fully claimed while (for
example) the base label "9 AM" of the High zone is not, yet the claimed slot
is not a base label of any zone. -/
theorem C4_witness :
    (claimSlot Zone.medium energySlotsMedium 0).1 ∉ allSlotsFlat ∧
      "9 AM" ∉ energySlotsMedium :=
  ⟨(C4_zone_exhausted_synthesizes Zone.medium energySlotsMedium 0 (fun s hs => hs)).2.1,
    by decide⟩

/-- **C4 (counterexample).** Five Shallow tasks at energy 5: the Medium zone
is exhausted after four of them while the flattened base list still has the
unclaimed label "9 AM", yet the fifth task receives the synthesized label
"9 AM (+1)", not "9 AM" — refuting the claimed fallback scan for tasks. -/
theorem C4_counterexample :
    (assign_slots_with_breaks shallow5 5 "meh").map Entry.time
        = ["1 PM", "2 PM", "3 PM", "4 PM", "9 AM (+1)"] ∧
      "9 AM" ∉ (assign_slots_with_breaks shallow5 5 "meh").map Entry.time ∧
      ¬ ((assign_slots_with_breaks shallow5 5 "meh").map Entry.time)[4]? = some "9 AM" := by
  refine ⟨by decide, by decide, by decide⟩

/-- **C7 (amended).** When a break is inserted and every base label is
claimed, its slot label is the literal string `"Break (+c)"` built from the
current extension counter (incremented afterwards) — not a label produced by
the tasks' round-robin suffix rule, whose outputs it never equals. -/
theorem C7_break_overflow_literal (used : List String) (counter : Nat)
    (h : ∀ s ∈ allSlotsFlat, s ∈ used) :
    breakClaim used counter = (breakLabel counter, counter + 1) ∧
      breakLabel counter ∉ allSlotsFlat ∧
      ¬ ∃ c : Nat, breakLabel counter = extLabel c := by
  refine ⟨?_, ?_, fun ⟨c, hc⟩ => ext_ne_breakLabel c counter hc.symm⟩
  · have hf : allSlotsFlat.find? (fun s => !used.contains s) = none := by
      rw [List.find?_eq_none]
      intro a ha
      simp
      exact h a ha
    simp only [breakClaim, hf]
  · intro hmem
    exact flat_ne_breakLabel _ hmem counter rfl

/-- Witness for the amended C7 with all base labels claimed and counter 0. -/
theorem C7_witness : breakClaim allSlotsFlat 0 = (breakLabel 0, 1) :=
  (C7_break_overflow_literal allSlotsFlat 0 (fun _ hs => hs)).1

/-- **C7 (counterexample).** Twenty "Deep Work" tasks at energy 8: the tenth
break is inserted when every base label is claimed, and its label is
"Break (+17)" — not a base label and not of the tasks' round-robin suffix
form, refuting "the same overflow rule as for tasks". -/
theorem C7_counterexample :
    (assign_slots_with_breaks dw20 8 "ok")[29]?
        = some ⟨breakLabel 17, breakTaskText, "Break", breakReason⟩ ∧
      breakLabel 17 ∉ allSlotsFlat ∧
      ¬ ∃ c : Nat, breakLabel 17 = extLabel c := by
  refine ⟨by decide, ?_, fun ⟨c, hc⟩ => ext_ne_breakLabel c 17 hc.symm⟩
  intro hmem
  exact flat_ne_breakLabel _ hmem 17 rfl

/-- **C8.** Ignoring entries typed "Break", `assign_slots_with_breaks` emits
task entries as a stable sort of the input by type priority
Deep Work(1) < Creative(2) < Shallow/Unknown/other(3): the emitted
(task, type, reason) triples are sorted by priority, and for every priority
class `p` they restrict to exactly the input's class-`p` (non-"Break"-typed)
tasks in their original relative order. -/
theorem C8_stable_priority_sort (tasks : List TaskDict) (energy : Int) (mood : String)
    (p : Nat) :
    List.Pairwise (fun a b => typePriority a.2.1 ≤ typePriority b.2.1)
        (((assign_slots_with_breaks tasks energy mood).filter
          (fun en => !(en.type == "Break"))).map Entry.proj) ∧
      (((assign_slots_with_breaks tasks energy mood).filter
          (fun en => !(en.type == "Break"))).map Entry.proj).filter
            (fun x => typePriority x.2.1 == p)
        = ((tasks.filter (fun t => !(t.type.getD "" == "Break"))).map
            (fun t => (t.task.getD "", t.type.getD "", t.reason.getD ""))).filter
            (fun x => typePriority x.2.1 == p) := by
  have hcomm : ((assign_slots_with_breaks tasks energy mood).filter
        (fun en => !(en.type == "Break"))).map Entry.proj
      = ((assign_slots_with_breaks tasks energy mood).map Entry.proj).filter
        (fun x => !(x.2.1 == "Break")) := by
    rw [List.filter_map]
    rfl
  rw [hcomm, assign_proj, shape_filter_not_break]
  constructor
  · have hsorted : List.Pairwise taskLE (tasksSorted tasks) :=
      List.sorted_insertionSort taskLE tasks
    have hfiltered : List.Pairwise taskLE
        ((tasksSorted tasks).filter (fun t => !(t.type.getD "" == "Break"))) :=
      hsorted.filter _
    exact List.pairwise_map.mpr (hfiltered.imp (fun h => h))
  · rw [List.filter_map, List.filter_map]
    apply congrArg (List.map _)
    have hcomp : ((fun x : String × String × String => typePriority x.2.1 == p) ∘
          (fun t : TaskDict => (t.task.getD "", t.type.getD "", t.reason.getD "")))
        = fun t : TaskDict => typePriority (t.type.getD "") == p := rfl
    rw [hcomp, List.filter_filter, List.filter_filter]
    have hp : ∀ x y : TaskDict,
        ((typePriority (x.type.getD "") == p) && !(x.type.getD "" == "Break")) = true →
        ((typePriority (y.type.getD "") == p) && !(y.type.getD "" == "Break")) = true →
        taskLE x y := by
      intro x y hx hy
      simp only [Bool.and_eq_true, beq_iff_eq] at hx hy
      show typePriority (x.type.getD "") ≤ typePriority (y.type.getD "")
      omega
    show (List.insertionSort taskLE tasks).filter _ = _
    rw [filter_insertionSort _ hp]

/-- **C2 (amended).** An update returning `session_not_found` or
`invalid_task_index` leaves the store exactly unchanged; an update returning
`invalid_action` leaves every field of the session unchanged except that the
indexed task has already been popped from its classified task list (the
source validates the action only after the pop). -/
theorem C2_error_mutation (store : SessionStore) (sid : String) (taskIndex : Int)
    (action : String) :
    ((realtime_update store sid taskIndex action).2 = UpdateResult.err "session_not_found" →
      (realtime_update store sid taskIndex action).1 = store) ∧
    ((realtime_update store sid taskIndex action).2 = UpdateResult.err "invalid_task_index" →
      (realtime_update store sid taskIndex action).1 = store) ∧
    ((realtime_update store sid taskIndex action).2 = UpdateResult.err "invalid_action" →
      ∃ sess : Session, storeGet store sid = some sess ∧
        (realtime_update store sid taskIndex action).1 = storeSet store sid
          { sess with classified_tasks := sess.classified_tasks.eraseIdx taskIndex.toNat }) := by
  cases hget : storeGet store sid with
  | none =>
    refine ⟨fun _ => ?_, fun h => ?_, fun h => ?_⟩
    · simp only [realtime_update, hget]
    · simp only [realtime_update, hget] at h
      simp at h
    · simp only [realtime_update, hget] at h
      simp at h
  | some sess =>
    by_cases hidx : taskIndex < 0 ∨ (sess.classified_tasks.length : Int) ≤ taskIndex
    · refine ⟨fun h => ?_, fun _ => ?_, fun h => ?_⟩
      · simp only [realtime_update, hget, if_pos hidx] at h
        simp at h
      · simp only [realtime_update, hget, if_pos hidx]
      · simp only [realtime_update, hget, if_pos hidx] at h
        simp at h
    · by_cases hc : action = "completed"
      · refine ⟨fun h => ?_, fun h => ?_, fun h => ?_⟩ <;>
          · simp only [realtime_update, hget, if_neg hidx, if_pos hc] at h
            simp at h
      · by_cases hs : action = "skipped"
        · refine ⟨fun h => ?_, fun h => ?_, fun h => ?_⟩ <;>
            · simp only [realtime_update, hget, if_neg hidx, if_neg hc, if_pos hs] at h
              simp at h
        · refine ⟨fun h => ?_, fun h => ?_, fun _ => ?_⟩
          · simp only [realtime_update, hget, if_neg hidx, if_neg hc, if_neg hs] at h
            simp at h
          · simp only [realtime_update, hget, if_neg hidx, if_neg hc, if_neg hs] at h
            simp at h
          · refine ⟨sess, rfl, ?_⟩
            simp only [realtime_update, hget, if_neg hidx, if_neg hc, if_neg hs]

/-- Witness for the amended C2: an unknown session id leaves the (empty)
store unchanged. -/
theorem C2_witness : (realtime_update [] "nope" 0 "completed").1 = ([] : SessionStore) :=
  (C2_error_mutation [] "nope" 0 "completed").1 (by decide)

/-- **C2 (counterexample).** An unrecognized action string returns the named
error `invalid_action` but still mutates the session: the indexed task has
been removed from its classified task list. -/
theorem C2_counterexample :
    (realtime_update storeA "s" 0 "oops").2 = UpdateResult.err "invalid_action" ∧
      (realtime_update storeA "s" 0 "oops").1 ≠ storeA := by
  refine ⟨by decide, by decide⟩

/-- **C3 (amended).** `realtime_start` stores as the session's classified
task list an entry-for-entry mirror of the generated schedule — including its
Break entries, stored as pseudo-tasks of type "Break" — and stores that same
schedule as the current schedule, so the update bounds check is against a
list of schedule length that contains exactly as many Break-typed tasks as
the schedule has Break entries. -/
theorem C3_session_mirrors_schedule (outcome : ClassifierOutcome) (tasks : List String)
    (energy : Int) (mood : String) (sid : String) (store : SessionStore) :
    ∃ sess : Session,
      (realtime_start outcome tasks energy mood sid store).1 = store ++ [(sid, sess)] ∧
      sess.classified_tasks = (generate_schedule outcome tasks energy mood).map
        (fun item => (⟨some item.task, some item.type, some item.reason⟩ : TaskDict)) ∧
      sess.current_schedule = generate_schedule outcome tasks energy mood ∧
      (sess.classified_tasks.filter (fun t => t.type == some "Break")).length
        = (sess.current_schedule.filter (fun en => en.type == "Break")).length := by
  refine ⟨_, rfl, rfl, rfl, ?_⟩
  show (((generate_schedule outcome tasks energy mood).map _).filter _).length = _
  rw [List.filter_map, List.length_map]
  apply congrArg List.length
  apply List.filter_congr
  intro en _
  show (some en.type == some "Break") = (en.type == "Break")
  simp

/-- **C3 (counterexample).** Starting a session from a classifier result with
two "Deep Work" tasks stores a schedule with a Break entry, and that Break
entry is mirrored into the session's classified task list as a task of type
"Break" — refuting "the stored task list never contains a Break entry". -/
theorem C3_counterexample :
    ((realtime_start (ClassifierOutcome.parsedList dwPair) ["A", "B"] 8 "ok" "sid0" []).1.map
      (fun pr => pr.2.classified_tasks.any (fun t => t.type == some "Break"))) = [true] := by
  decide

theorem shape_break_count : ∀ (ts : List TaskDict) (dw : Nat),
    (∀ t ∈ ts, t.type.getD "" ≠ "Break") →
    ((shape dw ts).filter (fun x => x.2.1 == "Break")).length
      = (dw + countDeepWork ts) / 2 - dw / 2 := by
  intro ts
  induction ts with
  | nil => intro dw _; simp [shape, countDeepWork]
  | cons t ts ih =>
    intro dw h
    have ht := h t (List.mem_cons_self t ts)
    have hts : ∀ t' ∈ ts, t'.type.getD "" ≠ "Break" :=
      fun t' h' => h t' (List.mem_cons_of_mem t h')
    rw [countDeepWork_cons]
    by_cases hdw : t.type.getD "" = "Deep Work"
    · by_cases hpar : (dw + 1) % 2 = 0
      · simp only [shape, hdw, if_pos, hpar, List.filter_cons]
        simp only [breakTaskText, breakReason]
        simp [ih (dw + 1) hts]
        omega
      · simp only [shape, hdw, if_pos, if_neg hpar, List.filter_cons]
        simp [ih (dw + 1) hts]
        omega
    · have hne : (t.type.getD "" == "Break") = false := by
        simp [ht]
      simp only [shape, if_neg hdw, List.filter_cons, hne]
      simp [ih dw hts, hdw]

theorem shape_break_pos : ∀ (ts : List TaskDict) (dw : Nat),
    (∀ t ∈ ts, t.type.getD "" ≠ "Break") →
    ∀ (i : Nat) (x : String × String × String),
      (shape dw ts)[i]? = some x → x.2.1 = "Break" →
      0 < i ∧ ∃ prev, (shape dw ts)[i - 1]? = some prev ∧ prev.2.1 = "Deep Work" ∧
        ((((shape dw ts).take i).filter (fun y => y.2.1 == "Deep Work")).length + dw) % 2
          = 0 := by
  intro ts
  induction ts with
  | nil =>
    intro dw _ i x hget hbx
    simp [shape] at hget
  | cons t ts ih =>
    intro dw h i x hget hbx
    have ht := h t (List.mem_cons_self t ts)
    have hts : ∀ t' ∈ ts, t'.type.getD "" ≠ "Break" :=
      fun t' h' => h t' (List.mem_cons_of_mem t h')
    by_cases hdw : t.type.getD "" = "Deep Work"
    · by_cases hpar : (dw + 1) % 2 = 0
      · rw [show shape dw (t :: ts)
            = (t.task.getD "", t.type.getD "", t.reason.getD "")
              :: (breakTaskText, "Break", breakReason) :: shape (dw + 1) ts from by
          simp [shape, hdw, hpar]] at hget ⊢
        rcases i with _ | (_ | j)
        · rw [List.getElem?_cons_zero] at hget
          have hx : x.2.1 = t.type.getD "" := by
            rw [← Option.some.inj hget]
          rw [hbx, hdw] at hx
          exact absurd hx (by decide)
        · refine ⟨by omega, (t.task.getD "", t.type.getD "", t.reason.getD ""), ?_, hdw, ?_⟩
          · rfl
          · have htake : ((t.task.getD "", t.type.getD "", t.reason.getD "")
                :: (breakTaskText, "Break", breakReason) :: shape (dw + 1) ts).take 1
                = [(t.task.getD "", t.type.getD "", t.reason.getD "")] := rfl
            rw [htake, List.filter_cons]
            simp [hdw]
            omega
        · rw [List.getElem?_cons_succ, List.getElem?_cons_succ] at hget
          obtain ⟨hj0, prev, hprev, hpdw, hcnt⟩ := ih (dw + 1) hts j x hget hbx
          obtain ⟨j', rfl⟩ : ∃ j', j = j' + 1 := ⟨j - 1, by omega⟩
          refine ⟨by omega, prev, ?_, hpdw, ?_⟩
          · show (_ :: _ :: shape (dw + 1) ts)[j' + 2 + 1 - 1]? = some prev
            have hidx : j' + 2 + 1 - 1 = (j' + 1) + 1 := rfl
            rw [hidx, List.getElem?_cons_succ, List.getElem?_cons_succ]
            have hidx' : j' + 1 - 1 = j' := rfl
            rw [hidx'] at hprev
            exact hprev
          · rw [show j' + 1 + 1 + 1 = (j' + 1) + 1 + 1 from rfl, List.take_succ_cons,
              List.take_succ_cons, List.filter_cons, List.filter_cons]
            simp only [hdw]
            simp
            omega
      · rw [show shape dw (t :: ts)
            = (t.task.getD "", t.type.getD "", t.reason.getD "") :: shape (dw + 1) ts from by
          simp [shape, hdw, hpar]] at hget ⊢
        rcases i with _ | j
        · rw [List.getElem?_cons_zero] at hget
          have hx : x.2.1 = t.type.getD "" := by
            rw [← Option.some.inj hget]
          rw [hbx, hdw] at hx
          exact absurd hx (by decide)
        · rw [List.getElem?_cons_succ] at hget
          obtain ⟨hj0, prev, hprev, hpdw, hcnt⟩ := ih (dw + 1) hts j x hget hbx
          obtain ⟨j', rfl⟩ : ∃ j', j = j' + 1 := ⟨j - 1, by omega⟩
          refine ⟨by omega, prev, ?_, hpdw, ?_⟩
          · show (_ :: shape (dw + 1) ts)[j' + 1 + 1 - 1]? = some prev
            have hidx : j' + 1 + 1 - 1 = j' + 1 := rfl
            rw [hidx, List.getElem?_cons_succ]
            have hidx' : j' + 1 - 1 = j' := rfl
            rw [hidx'] at hprev
            exact hprev
          · rw [show j' + 1 + 1 = (j' + 1) + 1 from rfl, List.take_succ_cons,
              List.filter_cons]
            simp only [hdw]
            simp
            omega
    · rw [show shape dw (t :: ts)
          = (t.task.getD "", t.type.getD "", t.reason.getD "") :: shape dw ts from by
        simp [shape, hdw]] at hget ⊢
      rcases i with _ | j
      · rw [List.getElem?_cons_zero] at hget
        have hx : x.2.1 = t.type.getD "" := by
          rw [← Option.some.inj hget]
        rw [hbx] at hx
        exact absurd hx.symm ht
      · rw [List.getElem?_cons_succ] at hget
        obtain ⟨hj0, prev, hprev, hpdw, hcnt⟩ := ih dw hts j x hget hbx
        obtain ⟨j', rfl⟩ : ∃ j', j = j' + 1 := ⟨j - 1, by omega⟩
        refine ⟨by omega, prev, ?_, hpdw, ?_⟩
        · show (_ :: shape dw ts)[j' + 1 + 1 - 1]? = some prev
          have hidx : j' + 1 + 1 - 1 = j' + 1 := rfl
          rw [hidx, List.getElem?_cons_succ]
          have hidx' : j' + 1 - 1 = j' := rfl
          rw [hidx'] at hprev
          exact hprev
        · rw [show j' + 1 + 1 = (j' + 1) + 1 from rfl, List.take_succ_cons,
            List.filter_cons]
          have hne : (t.type.getD "" == "Deep Work") = false := by
            simp [hdw]
          simp [hne]
          omega

/-- **C6 (amended).** For inputs in which no task dict itself carries the
reserved type "Break" (classifier outputs never do, but the realtime session
layer can feed such dicts back in), the schedule contains exactly
`floor(N/2)` entries of type "Break" for `N` input "Deep Work" tasks, and
every Break entry immediately follows a "Deep Work" entry such that the
number of "Deep Work" entries up to and including it is even — i.e. it
follows the 2nd, 4th, 6th, ... Deep Work entry in output order. -/
theorem C6_break_rule (tasks : List TaskDict) (energy : Int) (mood : String)
    (h : ∀ t ∈ tasks, t.type.getD "" ≠ "Break") :
    ((assign_slots_with_breaks tasks energy mood).filter
        (fun en => en.type == "Break")).length = countDeepWork tasks / 2 ∧
      ∀ (i : Nat) (en : Entry), (assign_slots_with_breaks tasks energy mood)[i]? = some en →
        en.type = "Break" →
        0 < i ∧ ∃ prev, (assign_slots_with_breaks tasks energy mood)[i - 1]? = some prev ∧
          prev.type = "Deep Work" ∧
          (((assign_slots_with_breaks tasks energy mood).take i).filter
            (fun en' => en'.type == "Deep Work")).length % 2 = 0 := by
  have hsorted : ∀ t ∈ tasksSorted tasks, t.type.getD "" ≠ "Break" :=
    fun t ht => h t ((List.mem_insertionSort taskLE).mp ht)
  constructor
  · have hmap : ((assign_slots_with_breaks tasks energy mood).filter
          (fun en => en.type == "Break")).length
        = (((assign_slots_with_breaks tasks energy mood).map Entry.proj).filter
          (fun x => x.2.1 == "Break")).length := by
      rw [List.filter_map, List.length_map]
      rfl
    rw [hmap, assign_proj, shape_break_count _ 0 hsorted, countDeepWork_tasksSorted]
    omega
  · intro i en hget hbt
    have hget' : ((assign_slots_with_breaks tasks energy mood).map Entry.proj)[i]?
        = some (Entry.proj en) := by
      rw [List.getElem?_map, hget]
      rfl
    rw [assign_proj] at hget'
    obtain ⟨hi0, prev', hprev', hpdw', hcnt⟩ :=
      shape_break_pos (tasksSorted tasks) 0 hsorted i (Entry.proj en) hget' hbt
    refine ⟨hi0, ?_⟩
    have hprev'' : Option.map Entry.proj (assign_slots_with_breaks tasks energy mood)[i - 1]?
        = some prev' := by
      rw [← List.getElem?_map, assign_proj]
      exact hprev'
    obtain ⟨prev, hprev, hproj⟩ := Option.map_eq_some'.mp hprev''
    refine ⟨prev, hprev, ?_, ?_⟩
    · have hp : prev.type = prev'.2.1 := by rw [← hproj]; rfl
      rw [hp]
      exact hpdw'
    · have hcount : (((assign_slots_with_breaks tasks energy mood).take i).filter
            (fun en' => en'.type == "Deep Work")).length
          = ((((assign_slots_with_breaks tasks energy mood).map Entry.proj).take i).filter
            (fun y => y.2.1 == "Deep Work")).length := by
        rw [← List.map_take, List.filter_map, List.length_map]
        rfl
      rw [hcount, assign_proj]
      omega

/-- **C6 (counterexample).** A session-fed task dict of type "Break" (zero
"Deep Work" tasks, so the claim demands zero Break entries) produces a
schedule whose single entry has type "Break". -/
theorem C6_counterexample :
    ¬ (((assign_slots_with_breaks [breakTypedTask] 5 "ok").filter
        (fun en => en.type == "Break")).length = countDeepWork [breakTypedTask] / 2) := by
  decide

/-- Witness for the amended C6: three "Deep Work" tasks yield exactly one
Break entry. -/
theorem C6_witness :
    ((assign_slots_with_breaks dw3 8 "ok").filter
      (fun en => en.type == "Break")).length = 1 := by
  have h := C6_break_rule dw3 8 "ok" (by decide)
  rw [h.1]
  decide

example : (assign_slots_with_breaks [⟨some "a", some "Shallow", some "r"⟩] 5 "ok").map Entry.time
    = ["1 PM"] := by decide

example :
    (assign_slots_with_breaks
      [⟨some "a", some "Deep Work", some "r"⟩, ⟨some "b", some "Deep Work", some "r"⟩] 8 "ok").map
        Entry.time = ["9 AM", "10 AM", "11 AM"] := by decide

end ConsciousCalendar
